import Mathlib

set_option maxRecDepth 8000

/-!
Verification of the route-file rewriting tool `fix_params.py` against its
design specification.  The script's single transformer `fix_route_file`
is embedded as the pure function `transform` below (the spec's public
contract `transform(sourceText, paramName) -> TransformResult`); the
module-level driver loop is embedded as `runPairs`.  Texts are lists of
characters.  The interpolated regular expressions of the script are
embedded for the parameter names the tool is configured with: plain
identifiers (`id`, `username`), for which the interpolation is a literal.
-/

namespace FixParams

/-- SourceText: a file's contents as the ordered sequence of its characters. -/
abbrev Text := List Char

/-- Whitespace characters recognized by the script: Python's `str.lstrip`
and the regex class `\s` on the ASCII texts the tool processes. -/
def isWS (c : Char) : Bool :=
  c == ' ' || c == '\t' || c == '\n' || c == '\r' || c == '\x0b' || c == '\x0c'

/-- Characters of the parameter names the script is configured with
(plain lower-case identifiers such as `id` and `username`).  For such
names the interpolated regular expressions of the script match the name
literally. -/
def identChar (c : Char) : Bool :=
  c.isLower || c.isDigit || c == '_'

/-- Every character of the name is an identifier character. -/
def IsIdent (name : Text) : Prop := ∀ c ∈ name, identChar c = true

instance : DecidablePred IsIdent := fun name => by
  unfold IsIdent; infer_instance

/-- Boolean substring test, Python's `in` operator on strings. -/
def containsSub (pat : Text) : Text → Bool
  | [] => pat.isPrefixOf ([] : Text)
  | c :: t => pat.isPrefixOf (c :: t) || containsSub pat t

/-- Python `content.find(pat)`: index of the first occurrence, `none` when
the pattern does not occur. -/
def findSub (pat : Text) : Text → Option Nat
  | [] => if pat.isPrefixOf ([] : Text) then some 0 else none
  | c :: t => if pat.isPrefixOf (c :: t) then some 0 else (findSub pat t).map (· + 1)

/-- Index of the last newline of the list, `none` when there is none. -/
def lastNl : Text → Option Nat
  | [] => none
  | c :: t =>
    match lastNl t with
    | some j => some (j + 1)
    | none => if c = '\n' then some 0 else none

/-- The guard substring of line 12 of the script. -/
def guardMarker : Text := ("interface RouteParams").data

/-- Position at which step 1 inserts the interface block, lines 17-19 of
the script: `import_section_end = content.rfind('\n', 0, content.find('\n\n'))`,
replaced by `content.find('\n\n')` when that `rfind` returns -1; the block
is inserted at `import_section_end + 1`, which is 0 when both searches
fail (Python slicing with -1 drops the final character of the `rfind`
search range, and `content[:0]` is empty). -/
def insertPos (content : Text) : Nat :=
  match findSub ("\n\n").data content with
  | some p =>
    match lastNl (content.take p) with
    | some i => i + 1
    | none => p + 1
  | none =>
    match lastNl (content.take (content.length - 1)) with
    | some i => i + 1
    | none => 0

/-- The `interface_code` f-string of the script with `param_name`
interpolated. -/
def interfaceCode (name : Text) : Text :=
  ("\ninterface RouteParams \x7b\n  params: Promise<\x7b\n    ").data ++ name
    ++ (": string\n  \x7d>\n\x7d\n").data

/-- Step 1: insert the interface block at the computed position. -/
def step1 (name content : Text) : Text :=
  content.take (insertPos content) ++ interfaceCode name ++ content.drop (insertPos content)

/-- A literal element of the signature regular expression: match `p`
exactly at the front, returning the rest. -/
def lit (p s : Text) : Option Text :=
  if p.isPrefixOf s then some (s.drop p.length) else none

/-- The greedy `\s*` element of the signature regular expression.  Every
`\s*` in the pattern is followed by a non-whitespace literal, so the
greedy run never backtracks and the match is deterministic. -/
def wsDrop (s : Text) : Text := s.dropWhile isWS

/-- Matcher for the step-2 pattern
`\{\s*params\s*\}:\s*\{\s*params:\s*\{\s*<name>:\s*string\s*\}\s*\}`
(line 33 of the script) at the front of `s`; returns the rest of the text
after the matched span. -/
def matchSig (name s : Text) : Option Text :=
  (lit ("\x7b").data s).bind fun s1 =>
  (lit ("params").data (wsDrop s1)).bind fun s2 =>
  (lit ("\x7d:").data (wsDrop s2)).bind fun s3 =>
  (lit ("\x7b").data (wsDrop s3)).bind fun s4 =>
  (lit ("params:").data (wsDrop s4)).bind fun s5 =>
  (lit ("\x7b").data (wsDrop s5)).bind fun s6 =>
  (lit (name ++ (":").data) (wsDrop s6)).bind fun s7 =>
  (lit ("string").data (wsDrop s7)).bind fun s8 =>
  (lit ("\x7d").data (wsDrop s8)).bind fun s9 =>
  lit ("\x7d").data (wsDrop s9)

/-- The replacement text of step 2. -/
def sigRep : Text := ("\x7b params \x7d: RouteParams").data

/-- Left-to-right scan of `re.sub` for the signature pattern, with fuel;
each step either copies one character or replaces one non-overlapping
leftmost match.  The fuel is only a termination device: `replaceSig`
supplies enough of it, and the scan consumes at least one character per
step. -/
def replaceSigF (name : Text) : Nat → Text → Text
  | 0, s => s
  | _ + 1, [] => []
  | fuel + 1, c :: t =>
    match matchSig name (c :: t) with
    | some r => sigRep ++ replaceSigF name fuel r
    | none => c :: replaceSigF name fuel t

/-- Step 2 (lines 32-36 of the script): replace every leftmost
non-overlapping occurrence of the signature pattern. -/
def replaceSig (name s : Text) : Text := replaceSigF name s.length s

/-- Some position of the text starts a match of the signature pattern. -/
def hasSig (name : Text) : Text → Bool
  | [] => (matchSig name ([] : Text)).isSome
  | c :: t => (matchSig name (c :: t)).isSome || hasSig name t

/-- The line marker of step 3: `'{ params }: RouteParams' in line`. -/
def marker : Text := ("\x7b params \x7d: RouteParams").data

/-- The trigger substring of step 3: `'try {' in line`. -/
def tryMark : Text := ("try \x7b").data

/-- Python `len(line) - len(line.lstrip())`: the width of the leading
whitespace of the line. -/
def indentOf (l : Text) : Nat := (l.takeWhile isWS).length

/-- The list element appended after a `try {` line (line 55 of the
script); note that it carries its own trailing newline in addition to the
newlines later inserted by the join. -/
def awaitElem (name l : Text) : Text :=
  List.replicate (indentOf l + 2) ' '
    ++ ("const \x7b ").data ++ name ++ (" \x7d = await params\n").data

/-- The line scan of step 3 (lines 44-57 of the script), carrying the
`in_function` and `added_await` flags. -/
def step3Lines (name : Text) : List Text → Bool → Bool → List Text
  | [], _, _ => []
  | l :: ls, inF, added =>
    let hasMarker := containsSub marker l
    let inF1 := hasMarker || inF
    let added1 := if hasMarker then false else added
    if inF1 && !added1 && containsSub tryMark l then
      l :: awaitElem name l :: step3Lines name ls false true
    else
      l :: step3Lines name ls inF1 added1

/-- Python `content.split('\n')`. -/
def splitNl : Text → List Text
  | [] => [[]]
  | c :: t =>
    match splitNl t with
    | [] => [[]]
    | l :: ls => if c = '\n' then [] :: l :: ls else (c :: l) :: ls

/-- Python `'\n'.join(lines)`. -/
def joinNl : List Text → Text
  | [] => []
  | [l] => l
  | l :: ls => l ++ '\n' :: joinNl ls

/-- Step 3 (lines 38-59 of the script): split into lines, run the scan
with both flags initially false, and join with newlines. -/
def step3 (name s : Text) : Text :=
  joinNl (step3Lines name (splitNl s) false false)

/-- Left-to-right scan of `re.sub` for a literal pattern, with fuel, as
in `replaceSigF`. -/
def replaceAllF (pat rep : Text) : Nat → Text → Text
  | 0, s => s
  | _ + 1, [] => []
  | fuel + 1, c :: t =>
    if pat.isPrefixOf (c :: t) then
      rep ++ replaceAllF pat rep fuel (List.drop pat.length (c :: t))
    else
      c :: replaceAllF pat rep fuel t

/-- Replace every leftmost non-overlapping occurrence of `pat` by `rep`. -/
def replaceAll (pat rep s : Text) : Text := replaceAllF pat rep s.length s

/-- The literal pattern of step 4: `params.` followed by the configured
name. -/
def refPat (name : Text) : Text := ("params.").data ++ name

/-- Step 4 (line 62 of the script): rewrite every occurrence of
`params.<name>` to the bare name. -/
def step4 (name s : Text) : Text := replaceAll (refPat name) name s

/-- TransformResult: the transformer either skips the file (guard hit,
nothing is written) or produces the whole rewritten text. -/
inductive TransformResult where
  | Skipped : TransformResult
  | Rewritten : Text → TransformResult
deriving DecidableEq, Repr

/-- The transformer (`fix_route_file` without its file I/O): guard on the
substring `interface RouteParams`, then steps 1 to 4 in order. -/
def transform (content name : Text) : TransformResult :=
  if containsSub guardMarker content then
    TransformResult.Skipped
  else
    TransformResult.Rewritten
      (step4 name (step3 name (replaceSig name (step1 name content))))

/-- The file contents after one run of the transformer: unchanged when
skipped (nothing is written), the rewritten text otherwise. -/
def applyTransform (content name : Text) : Text :=
  match transform content name with
  | TransformResult.Skipped => content
  | TransformResult.Rewritten t => t

/-- A file system for the driver: an association list from paths to
contents; a missing path makes `open` raise. -/
def lookupFile (fs : List (Text × Text)) (p : Text) : Option Text :=
  match fs with
  | [] => none
  | (q, c) :: rest => if q = p then some c else lookupFile rest p

/-- Overwrite the contents stored for a path. -/
def writeFile (fs : List (Text × Text)) (p t : Text) : List (Text × Text) :=
  match fs with
  | [] => []
  | (q, c) :: rest => if q = p then (q, t) :: rest else (q, c) :: writeFile rest p t

/-- The module-level driver loop (lines 78-79 of the script): process the
configured pairs in order; an I/O error (missing file) is an uncaught
exception, so the run stops there.  The boolean records whether the loop
ran to completion. -/
def runPairs (fs : List (Text × Text)) : List (Text × Text) → List (Text × Text) × Bool
  | [] => (fs, true)
  | (p, name) :: rest =>
    match lookupFile fs p with
    | none => (fs, false)
    | some content =>
      match transform content name with
      | TransformResult.Skipped => runPairs fs rest
      | TransformResult.Rewritten t => runPairs (writeFile fs p t) rest

/-- The hardcoded configuration table of the script (lines 72-76). -/
def filesTable : List (Text × Text) :=
  [(("src/app/api/quiz/[id]/route.ts").data, ("id").data),
   (("src/app/api/users/[username]/route.ts").data, ("username").data),
   (("src/app/api/users/[username]/follow/route.ts").data, ("username").data)]

/-! Basic facts about the substring test and about list infixes. -/

theorem containsSub_iff {pat s : Text} : containsSub pat s = true ↔ pat <:+: s := by
  induction s with
  | nil => simp [containsSub]
  | cons c t ih =>
    simp only [containsSub, Bool.or_eq_true, List.isPrefixOf_iff_prefix, ih]
    exact (List.infix_cons_iff).symm

theorem infix_append_right_of {g s : Text} (t : Text) (h : g <:+: s) : g <:+: t ++ s := by
  obtain ⟨u, v, rfl⟩ := h
  exact ⟨t ++ u, v, by simp⟩

theorem infix_cons_of {g s : Text} (c : Char) (h : g <:+: s) : g <:+: c :: s :=
  List.infix_cons h

theorem prefix_append_cases {g a b : Text} (h : g <+: a ++ b) :
    g <+: a ∨ ∃ g2, g = a ++ g2 ∧ g2 <+: b := by
  obtain ⟨w, hw⟩ := h
  rcases List.append_eq_append_iff.mp hw with ⟨k, hk1, _⟩ | ⟨k, hk1, hk2⟩
  · exact Or.inl ⟨k, hk1.symm⟩
  · exact Or.inr ⟨k, hk1, ⟨w, hk2.symm⟩⟩

theorem suffix_append_cases {g a b : Text} (h : g <:+ a ++ b) :
    g <:+ b ∨ ∃ g1, g = g1 ++ b ∧ g1 <:+ a := by
  obtain ⟨w, hw⟩ := h
  rcases List.append_eq_append_iff.mp hw.symm with ⟨k, hk1, hk2⟩ | ⟨k, hk1, hk2⟩
  · exact Or.inl ⟨k, hk2.symm⟩
  · exact Or.inr ⟨k, hk2, ⟨w, hk1.symm⟩⟩

theorem infix_append_cases {g a b : Text} (h : g <:+: a ++ b) :
    g <:+: a ∨ g <:+: b ∨ ∃ g1 g2, g = g1 ++ g2 ∧ g1 ≠ [] ∧ g1 <:+ a ∧ g2 <+: b := by
  obtain ⟨t, hpre, hsuf⟩ := List.infix_iff_prefix_suffix.mp h
  rcases suffix_append_cases hsuf with hb | ⟨t1, rfl, ht1⟩
  · exact Or.inr (Or.inl (List.infix_iff_prefix_suffix.mpr ⟨t, hpre, hb⟩))
  · rcases prefix_append_cases hpre with ha | ⟨g2, rfl, hg2⟩
    · exact Or.inl (List.infix_iff_prefix_suffix.mpr ⟨t1, ha, ht1⟩)
    · rcases eq_or_ne t1 [] with rfl | hne
      · exact Or.inr (Or.inl (by simpa using hg2.isInfix))
      · exact Or.inr (Or.inr ⟨t1, g2, rfl, hne, ht1, hg2⟩)

theorem head?_of_append_ne_nil {g1 g2 g : Text} (h : g1 ++ g2 = g) (hne : g1 ≠ []) :
    g.head? = g1.head? := by
  cases g1 with
  | nil => exact absurd rfl hne
  | cons d g1' => simp [← h]

theorem mem_of_suffix_getLast? {g1 m : Text} {c : Char} (hs : g1 <:+ m) (hne : g1 ≠ [])
    (hm : m.getLast? = some c) : c ∈ g1 := by
  obtain ⟨w, rfl⟩ := hs
  rw [List.getLast?_append] at hm
  cases hg : g1.getLast? with
  | none => exact absurd hg (by simpa using List.getLast?_eq_none_iff.not.mpr (by simpa using hne))
  | some d =>
    rw [hg] at hm
    simp only [Option.or_some, Option.some.injEq] at hm
    exact hm ▸ List.mem_of_getLast?_eq_some hg

/-! Decomposition of a successful match of the signature pattern. -/

theorem lit_eq {p s r : Text} (h : lit p s = some r) : s = p ++ r := by
  unfold lit at h
  split at h
  · next hp =>
    have hs := List.prefix_iff_eq_append.mp (List.isPrefixOf_iff_prefix.mp hp)
    injection h with h'
    rw [← h']
    exact hs.symm
  · exact absurd h (by simp)

theorem lit_ws_eq {p s r : Text} (h : lit p (wsDrop s) = some r) :
    ∃ w, s = w ++ p ++ r ∧ ∀ c ∈ w, isWS c = true := by
  refine ⟨s.takeWhile isWS, ?_, fun c hc => List.mem_takeWhile_imp hc⟩
  have h1 := lit_eq h
  unfold wsDrop at h1
  have h2 : s.takeWhile isWS ++ s.dropWhile isWS = s := by simp
  conv_lhs => rw [← h2]
  rw [h1, ← List.append_assoc]

theorem matchSig_eq {name s r : Text} (h : matchSig name s = some r) :
    ∃ w1 w2 w3 w4 w5 w6 w7 w8 w9,
      (∀ c ∈ w1, isWS c = true) ∧ (∀ c ∈ w2, isWS c = true) ∧ (∀ c ∈ w3, isWS c = true) ∧
      (∀ c ∈ w4, isWS c = true) ∧ (∀ c ∈ w5, isWS c = true) ∧ (∀ c ∈ w6, isWS c = true) ∧
      (∀ c ∈ w7, isWS c = true) ∧ (∀ c ∈ w8, isWS c = true) ∧ (∀ c ∈ w9, isWS c = true) ∧
      s = ("\x7b").data ++ w1 ++ ("params").data ++ w2 ++ ("\x7d:").data ++ w3
          ++ ("\x7b").data ++ w4 ++ ("params:").data ++ w5 ++ ("\x7b").data ++ w6
          ++ name ++ (":").data ++ w7 ++ ("string").data ++ w8
          ++ ("\x7d").data ++ w9 ++ ("\x7d").data ++ r := by
  unfold matchSig at h
  rcases Option.bind_eq_some.mp h with ⟨s1, h1, h⟩
  rcases Option.bind_eq_some.mp h with ⟨s2, h2, h⟩
  rcases Option.bind_eq_some.mp h with ⟨s3, h3, h⟩
  rcases Option.bind_eq_some.mp h with ⟨s4, h4, h⟩
  rcases Option.bind_eq_some.mp h with ⟨s5, h5, h⟩
  rcases Option.bind_eq_some.mp h with ⟨s6, h6, h⟩
  rcases Option.bind_eq_some.mp h with ⟨s7, h7, h⟩
  rcases Option.bind_eq_some.mp h with ⟨s8, h8, h⟩
  rcases Option.bind_eq_some.mp h with ⟨s9, h9, h10⟩
  have e1 := lit_eq h1
  obtain ⟨w1, e2, hw1⟩ := lit_ws_eq h2
  obtain ⟨w2, e3, hw2⟩ := lit_ws_eq h3
  obtain ⟨w3, e4, hw3⟩ := lit_ws_eq h4
  obtain ⟨w4, e5, hw4⟩ := lit_ws_eq h5
  obtain ⟨w5, e6, hw5⟩ := lit_ws_eq h6
  obtain ⟨w6, e7, hw6⟩ := lit_ws_eq h7
  obtain ⟨w7, e8, hw7⟩ := lit_ws_eq h8
  obtain ⟨w8, e9, hw8⟩ := lit_ws_eq h9
  obtain ⟨w9, e10, hw9⟩ := lit_ws_eq h10
  subst e1 e2 e3 e4 e5 e6 e7 e8 e9 e10
  exact ⟨w1, w2, w3, w4, w5, w6, w7, w8, w9, hw1, hw2, hw3, hw4, hw5, hw6, hw7, hw8, hw9,
    by simp [List.append_assoc]⟩

/-- The non-whitespace, non-name characters that can occur in a matched
span of the signature pattern. -/
def sigFixed : Text := ("\x7b\x7dparams:string").data

theorem matchSig_span {name s r : Text} (h : matchSig name s = some r) :
    ∃ m, s = m ++ r ∧ m.head? = some '\x7b' ∧ (∃ v, m = v ++ [('\x7d' : Char)]) ∧
      ∀ c ∈ m, isWS c = true ∨ c ∈ sigFixed ∨ c ∈ name := by
  obtain ⟨w1, w2, w3, w4, w5, w6, w7, w8, w9, hw1, hw2, hw3, hw4, hw5, hw6, hw7, hw8, hw9, hs⟩ :=
    matchSig_eq h
  refine ⟨("\x7b").data ++ w1 ++ ("params").data ++ w2 ++ ("\x7d:").data ++ w3
      ++ ("\x7b").data ++ w4 ++ ("params:").data ++ w5 ++ ("\x7b").data ++ w6
      ++ name ++ (":").data ++ w7 ++ ("string").data ++ w8
      ++ ("\x7d").data ++ w9 ++ ("\x7d").data, by rw [hs]; try simp [List.append_assoc], by simp, ?_, ?_⟩
  · refine ⟨("\x7b").data ++ w1 ++ ("params").data ++ w2 ++ ("\x7d:").data ++ w3
      ++ ("\x7b").data ++ w4 ++ ("params:").data ++ w5 ++ ("\x7b").data ++ w6
      ++ name ++ (":").data ++ w7 ++ ("string").data ++ w8 ++ ("\x7d").data ++ w9, ?_⟩
    simp [List.append_assoc]
  · intro c hc
    simp only [List.mem_append, or_assoc] at hc
    rcases hc with hc | hc | hc | hc | hc | hc | hc | hc | hc | hc | hc | hc | hc | hc | hc | hc | hc | hc | hc | hc
    · exact Or.inr (Or.inl ((by decide : ∀ x ∈ ("\x7b").data, x ∈ sigFixed) c hc))
    · exact Or.inl (hw1 c hc)
    · exact Or.inr (Or.inl ((by decide : ∀ x ∈ ("params").data, x ∈ sigFixed) c hc))
    · exact Or.inl (hw2 c hc)
    · exact Or.inr (Or.inl ((by decide : ∀ x ∈ ("\x7d:").data, x ∈ sigFixed) c hc))
    · exact Or.inl (hw3 c hc)
    · exact Or.inr (Or.inl ((by decide : ∀ x ∈ ("\x7b").data, x ∈ sigFixed) c hc))
    · exact Or.inl (hw4 c hc)
    · exact Or.inr (Or.inl ((by decide : ∀ x ∈ ("params:").data, x ∈ sigFixed) c hc))
    · exact Or.inl (hw5 c hc)
    · exact Or.inr (Or.inl ((by decide : ∀ x ∈ ("\x7b").data, x ∈ sigFixed) c hc))
    · exact Or.inl (hw6 c hc)
    · exact Or.inr (Or.inr hc)
    · exact Or.inr (Or.inl ((by decide : ∀ x ∈ (":").data, x ∈ sigFixed) c hc))
    · exact Or.inl (hw7 c hc)
    · exact Or.inr (Or.inl ((by decide : ∀ x ∈ ("string").data, x ∈ sigFixed) c hc))
    · exact Or.inl (hw8 c hc)
    · exact Or.inr (Or.inl ((by decide : ∀ x ∈ ("\x7d").data, x ∈ sigFixed) c hc))
    · exact Or.inl (hw9 c hc)
    · exact Or.inr (Or.inl ((by decide : ∀ x ∈ ("\x7d").data, x ∈ sigFixed) c hc))

theorem matchSig_none_head {name : Text} {c : Char} {t : Text} (hc : c ≠ '\x7b') :
    matchSig name (c :: t) = none := by
  unfold matchSig
  have hl : lit ("\x7b").data (c :: t) = none := by
    unfold lit
    rw [if_neg]
    intro hp
    obtain ⟨w, hw⟩ := List.isPrefixOf_iff_prefix.mp hp
    have h2 : some '\x7b' = some c := by simpa using congrArg List.head? hw
    exact hc (Option.some.inj h2).symm
  rw [hl]
  rfl

theorem matchSig_some_length {name s r : Text} (h : matchSig name s = some r) :
    r.length < s.length := by
  obtain ⟨m, rfl, hh, _, _⟩ := matchSig_span h
  have hm : m ≠ [] := by intro he; rw [he] at hh; simp at hh
  have hp : 0 < m.length := List.length_pos.mpr hm
  simp only [List.length_append]
  omega

/-! Unfolding and preservation facts for the step-2 scan. -/

theorem replaceSigF_irrel (name : Text) :
    ∀ f1 f2 s, s.length ≤ f1 → s.length ≤ f2 →
      replaceSigF name f1 s = replaceSigF name f2 s := by
  intro f1
  induction f1 with
  | zero =>
    intro f2 s h1 _
    have hs : s = [] := List.length_eq_zero.mp (Nat.le_zero.mp h1)
    subst hs
    cases f2 <;> rfl
  | succ f1 ih =>
    intro f2 s h1 h2
    cases s with
    | nil => cases f2 <;> rfl
    | cons c t =>
      cases f2 with
      | zero => simp at h2
      | succ f2 =>
        simp only [replaceSigF]
        cases hm : matchSig name (c :: t) with
        | some r =>
          have hr := matchSig_some_length hm
          simp only [List.length_cons] at h1 h2
          simp only [List.length_cons] at hr
          show sigRep ++ replaceSigF name f1 r = sigRep ++ replaceSigF name f2 r
          rw [ih f2 r (by omega) (by omega)]
        | none =>
          simp only [List.length_cons] at h1 h2
          show c :: replaceSigF name f1 t = c :: replaceSigF name f2 t
          rw [ih f2 t (by omega) (by omega)]

theorem replaceSig_nil (name : Text) : replaceSig name [] = [] := rfl

theorem replaceSig_cons_match {name : Text} {c : Char} {t r : Text}
    (h : matchSig name (c :: t) = some r) :
    replaceSig name (c :: t) = sigRep ++ replaceSig name r := by
  unfold replaceSig
  simp only [List.length_cons, replaceSigF, h]
  have hr := matchSig_some_length h
  simp only [List.length_cons] at hr
  rw [replaceSigF_irrel name t.length r.length r (by omega) le_rfl]

theorem replaceSig_cons_none {name : Text} {c : Char} {t : Text}
    (h : matchSig name (c :: t) = none) :
    replaceSig name (c :: t) = c :: replaceSig name t := by
  unfold replaceSig
  simp only [List.length_cons, replaceSigF, h]

theorem replaceSig_copy {name p s : Text} (hp : ∀ c ∈ p, c ≠ '\x7b') :
    replaceSig name (p ++ s) = p ++ replaceSig name s := by
  induction p with
  | nil => simp
  | cons d p' ih =>
    have hd : d ≠ '\x7b' := hp d (by simp)
    rw [List.cons_append, replaceSig_cons_none (matchSig_none_head hd),
      ih (fun c hc => hp c (by simp [hc]))]
    rfl

theorem replaceSig_keeps_guard {name : Text} (hn : IsIdent name) :
    ∀ n s, s.length ≤ n → guardMarker <:+: s → guardMarker <:+: replaceSig name s := by
  intro n
  induction n with
  | zero =>
    intro s hs hg
    have he : s = [] := List.length_eq_zero.mp (Nat.le_zero.mp hs)
    subst he
    exact absurd (by simpa using hg) (by decide : ¬guardMarker = [])
  | succ n ih =>
    intro s hs hg
    cases s with
    | nil => exact absurd (by simpa using hg) (by decide : ¬guardMarker = [])
    | cons c t =>
      rcases List.infix_cons_iff.mp hg with hpre | htail
      · obtain ⟨w, hw⟩ := hpre
        rw [← hw, replaceSig_copy (by decide)]
        exact (List.prefix_append guardMarker _).isInfix
      · cases hm : matchSig name (c :: t) with
        | none =>
          rw [replaceSig_cons_none hm]
          simp only [List.length_cons] at hs
          exact infix_cons_of c (ih t (by omega) htail)
        | some r =>
          rw [replaceSig_cons_match hm]
          obtain ⟨m, hmr, hhead, ⟨v, hv⟩, hchars⟩ := matchSig_span hm
          rw [hmr] at hg
          rcases infix_append_cases hg with hm1 | hm2 | ⟨g1, g2, hg12, hne, hsuf, _⟩
          · have hRm : ('R' : Char) ∈ m := hm1.subset (by decide)
            rcases hchars 'R' hRm with h1 | h1 | h1
            · exact absurd h1 (by decide)
            · exact absurd h1 (by decide)
            · exact absurd (hn 'R' h1) (by decide)
          · have h1 := matchSig_some_length hm
            simp only [List.length_cons] at h1 hs
            exact infix_append_right_of sigRep (ih r (by omega) hm2)
          · have hlast : m.getLast? = some '\x7d' := by rw [hv]; exact List.getLast?_concat v
            have h7 : ('\x7d' : Char) ∈ g1 := mem_of_suffix_getLast? hsuf hne hlast
            have h8 : ('\x7d' : Char) ∈ guardMarker := by rw [hg12]; simp [h7]
            exact absurd h8 (by decide)

/-! Facts about the line split, the join, and the step-3 scan. -/

theorem joinNl_cons_cons (l l2 : Text) (ls : List Text) :
    joinNl (l :: l2 :: ls) = l ++ '\n' :: joinNl (l2 :: ls) := rfl

theorem splitNl_ne_nil (s : Text) : splitNl s ≠ [] := by
  cases s with
  | nil => simp [splitNl]
  | cons c t =>
    simp only [splitNl]
    split
    · simp
    · split <;> simp

theorem joinNl_splitNl (s : Text) : joinNl (splitNl s) = s := by
  induction s with
  | nil => rfl
  | cons c t ih =>
    simp only [splitNl]
    cases hs : splitNl t with
    | nil => exact absurd hs (splitNl_ne_nil t)
    | cons l ls =>
      rw [hs] at ih
      show joinNl (if c = '\n' then [] :: l :: ls else (c :: l) :: ls) = c :: t
      by_cases hc : c = '\n'
      · subst hc
        rw [if_pos rfl, joinNl_cons_cons, ih]
        rfl
      · rw [if_neg hc]
        cases ls with
        | nil =>
          show c :: l = c :: t
          rw [← ih]
          rfl
        | cons l2 ls2 =>
          rw [joinNl_cons_cons]
          show c :: (l ++ '\n' :: joinNl (l2 :: ls2)) = c :: t
          rw [← ih, joinNl_cons_cons]

theorem mem_step3Lines {name : Text} {ls : List Text} {l : Text} (h : l ∈ ls) :
    ∀ f a, l ∈ step3Lines name ls f a := by
  induction ls with
  | nil => simp at h
  | cons x xs ih =>
    intro f a
    rcases List.mem_cons.mp h with rfl | hx
    · simp only [step3Lines]
      split <;> try split
      all_goals simp
    · simp only [step3Lines]
      split <;> try split
      all_goals simp [ih hx]

theorem infix_joinNl_of_mem {l : Text} {ls : List Text} (h : l ∈ ls) : l <:+: joinNl ls := by
  induction ls with
  | nil => simp at h
  | cons x xs ih =>
    rcases List.mem_cons.mp h with rfl | hx
    · cases xs with
      | nil => exact List.infix_rfl
      | cons y ys => exact ⟨[], '\n' :: joinNl (y :: ys), rfl⟩
    · cases xs with
      | nil => simp at hx
      | cons y ys =>
        have h1 := ih hx
        have h2 : joinNl (x :: y :: ys) = (x ++ ['\n']) ++ joinNl (y :: ys) := by
          rw [joinNl_cons_cons]
          simp
        rw [h2]
        exact infix_append_right_of _ h1

theorem prefix_firstLine {g : Text} (hg : ∀ c ∈ g, c ≠ '\n') :
    ∀ t, g <+: t → ∃ l0 ls0, splitNl t = l0 :: ls0 ∧ g <+: l0 := by
  induction g with
  | nil =>
    intro t _
    cases h : splitNl t with
    | nil => exact absurd h (splitNl_ne_nil t)
    | cons l0 ls0 => exact ⟨l0, ls0, rfl, List.nil_prefix⟩
  | cons d g' ih =>
    intro t hp
    obtain ⟨w, hw⟩ := hp
    cases t with
    | nil => simp at hw
    | cons c t' =>
      rw [List.cons_append] at hw
      injection hw with hd hw'
      subst hd
      obtain ⟨l1, ls1, hs1, hp1⟩ := ih (fun c hc => hg c (by simp [hc])) t' ⟨w, hw'⟩
      have hd' : d ≠ '\n' := hg d (by simp)
      refine ⟨d :: l1, ls1, ?_, ?_⟩
      · simp only [splitNl]
        rw [hs1]
        show (if d = '\n' then [] :: l1 :: ls1 else (d :: l1) :: ls1) = (d :: l1) :: ls1
        rw [if_neg hd']
      · exact List.cons_prefix_cons.mpr ⟨rfl, hp1⟩

theorem exists_line_of_infix {g : Text} (hg : ∀ c ∈ g, c ≠ '\n') :
    ∀ s, g <:+: s → ∃ l, l ∈ splitNl s ∧ g <:+: l := by
  intro s
  induction s with
  | nil =>
    intro h
    exact ⟨[], by simp [splitNl], h⟩
  | cons c t ih =>
    intro h
    rcases List.infix_cons_iff.mp h with hpre | htail
    · obtain ⟨l0, ls0, hs, hp⟩ := prefix_firstLine hg (c :: t) hpre
      exact ⟨l0, by simp [hs], hp.isInfix⟩
    · obtain ⟨l, hl, hgl⟩ := ih htail
      cases hs : splitNl t with
      | nil => exact absurd hs (splitNl_ne_nil t)
      | cons l1 ls1 =>
        rw [hs] at hl
        by_cases hc : c = '\n'
        · refine ⟨l, ?_, hgl⟩
          simp only [splitNl]
          rw [hs]
          show l ∈ (if c = '\n' then [] :: l1 :: ls1 else (c :: l1) :: ls1)
          rw [if_pos hc]
          simp [hl]
        · rcases List.mem_cons.mp hl with rfl | hmem
          · refine ⟨c :: l, ?_, infix_cons_of c hgl⟩
            simp only [splitNl]
            rw [hs]
            show c :: l ∈ (if c = '\n' then [] :: l :: ls1 else (c :: l) :: ls1)
            rw [if_neg hc]
            simp
          · refine ⟨l, ?_, hgl⟩
            simp only [splitNl]
            rw [hs]
            show l ∈ (if c = '\n' then [] :: l1 :: ls1 else (c :: l1) :: ls1)
            rw [if_neg hc]
            simp [hmem]

theorem step3_keeps_infix {g : Text} (hg : ∀ c ∈ g, c ≠ '\n') {name s : Text}
    (h : g <:+: s) : g <:+: step3 name s := by
  obtain ⟨l, hl, hgl⟩ := exists_line_of_infix hg s h
  exact hgl.trans (infix_joinNl_of_mem (mem_step3Lines hl false false))

theorem step3Lines_no_try {name : Text} {ls : List Text}
    (h : ∀ l ∈ ls, containsSub tryMark l = false) :
    ∀ f a, step3Lines name ls f a = ls := by
  induction ls with
  | nil => intro f a; rfl
  | cons x xs ih =>
    intro f a
    have hx := h x (by simp)
    simp only [step3Lines, hx]
    rw [if_neg (by simp)]
    rw [ih (fun l hl => h l (by simp [hl])) _ _]

theorem step3Lines_no_marker {name : Text} {ls : List Text}
    (h : ∀ l ∈ ls, containsSub marker l = false) :
    ∀ a, step3Lines name ls false a = ls := by
  induction ls with
  | nil => intro a; rfl
  | cons x xs ih =>
    intro a
    have hx := h x (by simp)
    simp only [step3Lines, hx]
    rw [if_neg (by simp)]
    simp only [Bool.false_or, if_false]
    rw [ih (fun l hl => h l (by simp [hl])) _]

theorem mem_ite_list {α : Type} {e : α} {c : Prop} [Decidable c] {u v : List α}
    (h : e ∈ if c then u else v) : (c ∧ e ∈ u) ∨ (¬c ∧ e ∈ v) := by
  by_cases hc : c
  · rw [if_pos hc] at h
    exact Or.inl ⟨hc, h⟩
  · rw [if_neg hc] at h
    exact Or.inr ⟨hc, h⟩

theorem step3Lines_elem {name : Text} {ls : List Text} :
    ∀ f a e, e ∈ step3Lines name ls f a →
      e ∈ ls ∨ ∃ l, l ∈ ls ∧ containsSub tryMark l = true ∧ e = awaitElem name l := by
  induction ls with
  | nil => intro f a e h; simp [step3Lines] at h
  | cons x xs ih =>
    intro f a e h
    simp only [step3Lines] at h
    rcases mem_ite_list h with ⟨hcond, h2⟩ | ⟨_, h2⟩
    · have ht : containsSub tryMark x = true := by
        simp only [Bool.and_eq_true] at hcond
        exact hcond.2
      rcases List.mem_cons.mp h2 with rfl | h3
      · exact Or.inl (by simp)
      · rcases List.mem_cons.mp h3 with rfl | h4
        · exact Or.inr ⟨x, by simp, ht, rfl⟩
        · rcases ih _ _ _ h4 with h5 | ⟨l, hl, htl, he⟩
          · exact Or.inl (by simp [h5])
          · exact Or.inr ⟨l, by simp [hl], htl, he⟩
    · rcases List.mem_cons.mp h2 with rfl | h3
      · exact Or.inl (by simp)
      · rcases ih _ _ _ h3 with h5 | ⟨l, hl, htl, he⟩
        · exact Or.inl (by simp [h5])
        · exact Or.inr ⟨l, by simp [hl], htl, he⟩

theorem awaitElem_getLast {name l : Text} : (awaitElem name l).getLast? = some '\n' := by
  have h : awaitElem name l =
      (List.replicate (indentOf l + 2) ' ' ++ ("const \x7b ").data ++ name
        ++ (" \x7d = await params").data) ++ ['\n'] := by
    unfold awaitElem
    have h2 : (" \x7d = await params\n").data = (" \x7d = await params").data ++ ['\n'] := by
      decide
    rw [h2]
    simp [List.append_assoc]
  rw [h]
  exact List.getLast?_concat _

/-! Unfolding and preservation facts for the step-4 scan. -/

theorem isPrefixOf_cons_neq {pat : Text} {q : Char} {pat' : Text} {c : Char} {t : Text}
    (hp : pat = q :: pat') (hne : q ≠ c) : pat.isPrefixOf (c :: t) = false := by
  subst hp
  simp [List.isPrefixOf, hne]

theorem bool_eq_false {b : Bool} (h : ¬ b = true) : b = false := by
  cases b
  · rfl
  · exact absurd rfl h

theorem replaceAllF_irrel (pat rep : Text) (hpat : pat ≠ []) :
    ∀ f1 f2 s, s.length ≤ f1 → s.length ≤ f2 →
      replaceAllF pat rep f1 s = replaceAllF pat rep f2 s := by
  intro f1
  induction f1 with
  | zero =>
    intro f2 s h1 _
    have hs : s = [] := List.length_eq_zero.mp (Nat.le_zero.mp h1)
    subst hs
    cases f2 <;> rfl
  | succ f1 ih =>
    intro f2 s h1 h2
    cases s with
    | nil => cases f2 <;> rfl
    | cons c t =>
      cases f2 with
      | zero => simp at h2
      | succ f2 =>
        simp only [replaceAllF]
        simp only [List.length_cons] at h1 h2
        by_cases hp : pat.isPrefixOf (c :: t) = true
        · rw [if_pos hp, if_pos hp]
          have h0 : 0 < pat.length := List.length_pos.mpr hpat
          have hlen : (List.drop pat.length (c :: t)).length ≤ t.length := by
            rw [List.length_drop]
            simp only [List.length_cons]
            omega
          rw [ih f2 _ (by omega) (by omega)]
        · rw [if_neg hp, if_neg hp]
          rw [ih f2 t (by omega) (by omega)]

theorem replaceAll_cons_pos {pat rep : Text} {c : Char} {t : Text} (hpat : pat ≠ [])
    (h : pat.isPrefixOf (c :: t) = true) :
    replaceAll pat rep (c :: t) = rep ++ replaceAll pat rep (List.drop pat.length (c :: t)) := by
  unfold replaceAll
  simp only [List.length_cons, replaceAllF]
  rw [if_pos h]
  have h0 : 0 < pat.length := List.length_pos.mpr hpat
  have hlen : (List.drop pat.length (c :: t)).length ≤ t.length := by
    rw [List.length_drop]
    simp only [List.length_cons]
    omega
  rw [replaceAllF_irrel pat rep hpat t.length (List.drop pat.length (c :: t)).length _ hlen le_rfl]

theorem replaceAll_cons_neg {pat rep : Text} {c : Char} {t : Text}
    (h : pat.isPrefixOf (c :: t) = false) :
    replaceAll pat rep (c :: t) = c :: replaceAll pat rep t := by
  unfold replaceAll
  simp only [List.length_cons, replaceAllF]
  rw [if_neg (by simp [h])]

theorem replaceAll_copy {pat rep : Text} {q : Char} {pat' : Text} (hp : pat = q :: pat')
    {p : Text} (hnc : ∀ c ∈ p, c ≠ q) (s : Text) :
    replaceAll pat rep (p ++ s) = p ++ replaceAll pat rep s := by
  induction p with
  | nil => simp
  | cons d p' ih =>
    have hd : pat.isPrefixOf (d :: (p' ++ s)) = false :=
      isPrefixOf_cons_neq hp (fun he => (hnc d (by simp)) he.symm)
    rw [List.cons_append, replaceAll_cons_neg hd, ih (fun c hc => hnc c (by simp [hc]))]
    rfl

theorem replaceAll_id_of_not_infix {pat rep s : Text} (h : ¬ pat <:+: s) :
    replaceAll pat rep s = s := by
  induction s with
  | nil => rfl
  | cons c t ih =>
    have hp : pat.isPrefixOf (c :: t) = false := by
      by_contra hb
      simp only [Bool.not_eq_false] at hb
      exact h (List.isPrefixOf_iff_prefix.mp hb).isInfix
    rw [replaceAll_cons_neg hp, ih (fun hi => h (List.infix_cons hi))]

theorem refPat_head (name : Text) : refPat name = 'p' :: (("arams.").data ++ name) := rfl

theorem refPat_ne_nil (name : Text) : refPat name ≠ [] := by
  rw [refPat_head name]
  simp

theorem guard_no_p : ∀ c ∈ guardMarker, c ≠ 'p' := by decide

/-- The straddle case of the step-4 preservation argument: when a
replaced occurrence of `params.<name>` overlaps a `interface RouteParams`
occurrence from the left, the overlap is a suffix of the name itself, so
the replacement writes the name back and the occurrence survives. -/
theorem straddle_case {name g1 g2 r : Text} (hn1 : g1 <:+ name)
    (hg12 : guardMarker = g1 ++ g2) (hpre2 : g2 <+: r) :
    guardMarker <:+: name ++ replaceAll (refPat name) name r := by
  obtain ⟨n1, hn1e⟩ := hn1
  obtain ⟨w2, hw2⟩ := hpre2
  have hg2c : ∀ c ∈ g2, c ≠ 'p' := fun c hc =>
    guard_no_p c (by rw [hg12]; simp [hc])
  refine ⟨n1, replaceAll (refPat name) name w2, ?_⟩
  calc n1 ++ guardMarker ++ replaceAll (refPat name) name w2
      = (n1 ++ g1) ++ (g2 ++ replaceAll (refPat name) name w2) := by
        rw [hg12]; simp [List.append_assoc]
    _ = name ++ (g2 ++ replaceAll (refPat name) name w2) := by rw [hn1e]
    _ = name ++ replaceAll (refPat name) name (g2 ++ w2) := by
        rw [replaceAll_copy (refPat_head name) hg2c w2]
    _ = name ++ replaceAll (refPat name) name r := by rw [hw2]

theorem replaceAll_keeps_guard {name : Text} (hn : IsIdent name) :
    ∀ n s, s.length ≤ n → guardMarker <:+: s →
      guardMarker <:+: replaceAll (refPat name) name s := by
  intro n
  induction n with
  | zero =>
    intro s hs hg
    have he : s = [] := List.length_eq_zero.mp (Nat.le_zero.mp hs)
    subst he
    exact absurd (by simpa using hg) (by decide : ¬guardMarker = [])
  | succ n ih =>
    intro s hs hg
    cases s with
    | nil => exact absurd (by simpa using hg) (by decide : ¬guardMarker = [])
    | cons c t =>
      rcases List.infix_cons_iff.mp hg with hpre | htail
      · obtain ⟨w, hw⟩ := hpre
        rw [← hw, replaceAll_copy (refPat_head name) guard_no_p w]
        exact (List.prefix_append guardMarker _).isInfix
      · by_cases hp : (refPat name).isPrefixOf (c :: t) = true
        · obtain ⟨r, hr⟩ := List.isPrefixOf_iff_prefix.mp hp
          have hdrop : List.drop (refPat name).length (c :: t) = r := by
            rw [← hr]
            exact List.drop_left _ _
          rw [replaceAll_cons_pos (refPat_ne_nil name) hp, hdrop]
          rw [← hr] at hg
          have hlen : (refPat name).length + r.length = t.length + 1 := by
            have h2 := congrArg List.length hr
            simpa [List.length_append] using h2
          have hpl : 0 < (refPat name).length := List.length_pos.mpr (refPat_ne_nil name)
          simp only [List.length_cons] at hs
          rcases infix_append_cases hg with hm1 | hm2 | ⟨g1, g2, hg12, hne, hsuf, hpre2⟩
          · have hR : ('R' : Char) ∈ refPat name := hm1.subset (by decide)
            unfold refPat at hR
            rcases List.mem_append.mp hR with h1 | h1
            · exact absurd h1 (by decide)
            · exact absurd (hn 'R' h1) (by decide)
          · exact infix_append_right_of name (ih r (by omega) hm2)
          · have hsuf2 : g1 <:+ ("params.").data ++ name := hsuf
            rcases suffix_append_cases hsuf2 with hks | ⟨k1, hk1, hk1s⟩
            · exact straddle_case hks hg12 hpre2
            · cases k1 with
              | nil =>
                simp only [List.nil_append] at hk1
                exact straddle_case (hk1 ▸ List.suffix_rfl) hg12 hpre2
              | cons d k1' =>
                have hd1 : g1.head? = some d := by
                  rw [hk1]
                  rfl
                have hd2 : guardMarker.head? = g1.head? :=
                  head?_of_append_ne_nil hg12.symm hne
                have hd3 : d = 'i' := by
                  rw [hd1] at hd2
                  have : guardMarker.head? = some 'i' := rfl
                  rw [this] at hd2
                  exact (Option.some.inj hd2).symm
                have hdm : d ∈ ("params.").data := hk1s.isInfix.subset (by simp)
                rw [hd3] at hdm
                exact absurd hdm (by decide)
        · have hpf : (refPat name).isPrefixOf (c :: t) = false := bool_eq_false hp
          rw [replaceAll_cons_neg hpf]
          simp only [List.length_cons] at hs
          exact infix_cons_of c (ih t (by omega) htail)

theorem replaceAll_length_le {pat rep : Text} (hpat : pat ≠ []) (hrep : rep.length ≤ pat.length) :
    ∀ n s, s.length ≤ n → (replaceAll pat rep s).length ≤ s.length := by
  intro n
  induction n with
  | zero =>
    intro s hs
    have he : s = [] := List.length_eq_zero.mp (Nat.le_zero.mp hs)
    subst he
    simp [replaceAll, replaceAllF]
  | succ n ih =>
    intro s hs
    cases s with
    | nil => simp [replaceAll, replaceAllF]
    | cons c t =>
      simp only [List.length_cons] at hs
      by_cases hp : pat.isPrefixOf (c :: t) = true
      · rw [replaceAll_cons_pos hpat hp]
        have h0 : 0 < pat.length := List.length_pos.mpr hpat
        have hple : pat.length ≤ t.length + 1 := by
          simpa using (List.isPrefixOf_iff_prefix.mp hp).length_le
        have hrec := ih (List.drop pat.length (c :: t))
          (by rw [List.length_drop]; simp only [List.length_cons]; omega)
        rw [List.length_drop] at hrec
        simp only [List.length_append, List.length_cons] at hrec ⊢
        omega
      · rw [replaceAll_cons_neg (bool_eq_false hp)]
        have hrec := ih t (by omega)
        simp only [List.length_cons]
        omega

theorem replaceAll_length_lt {pat rep : Text} (hpat : pat ≠ []) (hrep : rep.length < pat.length) :
    ∀ n s, s.length ≤ n → pat <:+: s → (replaceAll pat rep s).length < s.length := by
  intro n
  induction n with
  | zero =>
    intro s hs hocc
    have he : s = [] := List.length_eq_zero.mp (Nat.le_zero.mp hs)
    subst he
    have : pat = [] := by simpa using hocc
    exact absurd this hpat
  | succ n ih =>
    intro s hs hocc
    cases s with
    | nil =>
      have : pat = [] := by simpa using hocc
      exact absurd this hpat
    | cons c t =>
      simp only [List.length_cons] at hs
      by_cases hp : pat.isPrefixOf (c :: t) = true
      · rw [replaceAll_cons_pos hpat hp]
        have h0 : 0 < pat.length := List.length_pos.mpr hpat
        have hple : pat.length ≤ t.length + 1 := by
          simpa using (List.isPrefixOf_iff_prefix.mp hp).length_le
        have hrec := replaceAll_length_le hpat (Nat.le_of_lt hrep) (t.length + 1)
          (List.drop pat.length (c :: t))
          (by rw [List.length_drop]; simp only [List.length_cons]; omega)
        rw [List.length_drop] at hrec
        simp only [List.length_append, List.length_cons] at hrec ⊢
        omega
      · have hpf : pat.isPrefixOf (c :: t) = false := bool_eq_false hp
        rw [replaceAll_cons_neg hpf]
        have hocc2 : pat <:+: t := by
          rcases List.infix_cons_iff.mp hocc with hpre | htail
          · exact absurd (List.isPrefixOf_iff_prefix.mpr hpre) (by simp [hpf])
          · exact htail
        have hrec := ih t (by omega) hocc2
        simp only [List.length_cons]
        omega

/-! The guard substring survives a full rewrite. -/

theorem guard_infix_interfaceCode (name : Text) : guardMarker <:+: interfaceCode name := by
  refine ⟨['\n'], (" \x7b\n  params: Promise<\x7b\n    ").data ++ name
    ++ (": string\n  \x7d>\n\x7d\n").data, ?_⟩
  have h : ['\n'] ++ guardMarker ++ (" \x7b\n  params: Promise<\x7b\n    ").data
      = ("\ninterface RouteParams \x7b\n  params: Promise<\x7b\n    ").data := by decide
  unfold interfaceCode
  rw [← h]
  simp [List.append_assoc]

theorem guard_infix_step1 (name s : Text) : guardMarker <:+: step1 name s := by
  unfold step1
  exact (guard_infix_interfaceCode name).trans (List.infix_append _ _ _)

theorem step2_keeps_guard {name s : Text} (hn : IsIdent name) (h : guardMarker <:+: s) :
    guardMarker <:+: replaceSig name s :=
  replaceSig_keeps_guard hn s.length s le_rfl h

theorem step3_keeps_guard {name s : Text} (h : guardMarker <:+: s) :
    guardMarker <:+: step3 name s :=
  step3_keeps_infix (by decide) h

theorem step4_keeps_guard {name s : Text} (hn : IsIdent name) (h : guardMarker <:+: s) :
    guardMarker <:+: step4 name s :=
  replaceAll_keeps_guard hn s.length s le_rfl h

theorem transform_of_guard {s name : Text} (h : containsSub guardMarker s = true) :
    transform s name = TransformResult.Skipped := by
  unfold transform
  rw [if_pos h]

theorem transform_of_not_guard {s name : Text} (h : containsSub guardMarker s = false) :
    transform s name =
      TransformResult.Rewritten (step4 name (step3 name (replaceSig name (step1 name s)))) := by
  unfold transform
  rw [if_neg (by simp [h])]

theorem rewritten_contains_guard {s name t : Text} (hn : IsIdent name)
    (h : transform s name = TransformResult.Rewritten t) :
    containsSub guardMarker t = true := by
  unfold transform at h
  split at h
  · exact absurd h (by simp)
  · injection h with h'
    rw [← h']
    exact containsSub_iff.mpr
      (step4_keeps_guard hn (step3_keeps_guard (step2_keeps_guard hn (guard_infix_step1 name s))))

/-! Identity facts: when a step finds nothing to do it leaves the text alone. -/

theorem hasSig_cons (name : Text) (c : Char) (t : Text) :
    hasSig name (c :: t) = ((matchSig name (c :: t)).isSome || hasSig name t) := rfl

theorem replaceSig_id_of_not_hasSig {name : Text} :
    ∀ s, hasSig name s = false → replaceSig name s = s := by
  intro s
  induction s with
  | nil => intro _; rfl
  | cons c t ih =>
    intro h
    have hm : matchSig name (c :: t) = none := by
      cases hmm : matchSig name (c :: t) with
      | none => rfl
      | some r =>
        rw [hasSig_cons, hmm] at h
        simp at h
    rw [replaceSig_cons_none hm]
    rw [hasSig_cons, Bool.or_eq_false_iff] at h
    rw [ih h.2]

theorem step3_id_of_no_try {name s : Text}
    (h : ∀ l ∈ splitNl s, containsSub tryMark l = false) : step3 name s = s := by
  unfold step3
  rw [step3Lines_no_try h false false, joinNl_splitNl]

theorem step3_id_of_no_marker {name s : Text}
    (h : ∀ l ∈ splitNl s, containsSub marker l = false) : step3 name s = s := by
  unfold step3
  rw [step3Lines_no_marker h false, joinNl_splitNl]

/-! The injected interface block is a fixed point of steps 2, 3 and 4. -/

theorem ident_not_ws {c : Char} (h : identChar c = true) : isWS c = false := by
  cases hws : isWS c with
  | false => rfl
  | true =>
    unfold isWS at hws
    simp only [Bool.or_eq_true, beq_iff_eq, or_assoc] at hws
    rcases hws with rfl | rfl | rfl | rfl | rfl | rfl <;> exact absurd h (by decide)

theorem ident_ne {c d : Char} (h : identChar c = true) (hd : identChar d = false) : c ≠ d := by
  intro he
  rw [he, hd] at h
  simp at h

theorem wsDrop_ws_append {w : Text} (hw : ∀ c ∈ w, isWS c = true) (x : Text) :
    wsDrop (w ++ x) = wsDrop x := by
  induction w with
  | nil => rfl
  | cons d w' ih =>
    show (d :: (w' ++ x)).dropWhile isWS = wsDrop x
    rw [List.dropWhile_cons_of_pos (hw d (by simp))]
    exact ih (fun c hc => hw c (by simp [hc]))

theorem wsDrop_ident_colon {u : Text} (hu : ∀ c ∈ u, identChar c = true) (v : Text) :
    wsDrop (u ++ ':' :: v) = u ++ ':' :: v := by
  cases u with
  | nil =>
    show (':' :: v).dropWhile isWS = ':' :: v
    rw [List.dropWhile_cons_of_neg (by decide)]
  | cons d u' =>
    show (d :: (u' ++ ':' :: v)).dropWhile isWS = d :: (u' ++ ':' :: v)
    rw [List.dropWhile_cons_of_neg (by simp [ident_not_ws (hu d (by simp))])]

theorem lit_head_fail {p s : Text} {a b : Char} (hp : p.head? = some a) (hs : s.head? = some b)
    (hne : a ≠ b) : lit p s = none := by
  unfold lit
  rw [if_neg]
  intro hpp
  obtain ⟨w, hw⟩ := List.isPrefixOf_iff_prefix.mp hpp
  rw [← hw] at hs
  cases p with
  | nil => simp at hp
  | cons x xs =>
    rw [List.cons_append] at hs
    simp only [List.head?_cons, Option.some.injEq] at hp hs
    subst hp
    exact hne hs

theorem lit_params_ident {u : Text} (hu : ∀ c ∈ u, identChar c = true) (v : Text) :
    lit ("params").data (u ++ ':' :: v) = none ∨
      ∃ u', u = ("params").data ++ u' ∧ (∀ c ∈ u', identChar c = true) ∧
        lit ("params").data (u ++ ':' :: v) = some (u' ++ ':' :: v) := by
  by_cases hp : (("params").data).isPrefixOf (u ++ ':' :: v) = true
  · right
    have hpre := List.isPrefixOf_iff_prefix.mp hp
    have hsplit : ∃ u', u = ("params").data ++ u' := by
      rcases prefix_append_cases hpre with h1 | ⟨g2, hg2, hg2p⟩
      · obtain ⟨u', rfl⟩ := h1
        exact ⟨u', rfl⟩
      · cases g2 with
        | nil =>
          refine ⟨[], ?_⟩
          rw [List.append_nil] at hg2 ⊢
          exact hg2.symm
        | cons e g2' =>
          exfalso
          have he : e = ':' := by
            obtain ⟨w2, hw2⟩ := hg2p
            rw [List.cons_append] at hw2
            have h1 := congrArg List.head? hw2
            simpa using h1
          have hem : e ∈ ("params").data := by
            rw [hg2]
            simp
          rw [he] at hem
          exact absurd hem (by decide)
    obtain ⟨u', rfl⟩ := hsplit
    refine ⟨u', rfl, fun c hc => hu c (by simp [hc]), ?_⟩
    unfold lit
    rw [if_pos hp]
    rfl
  · left
    unfold lit
    rw [if_neg hp]

theorem matchSig_brace_fail {name w u v : Text} (hw : ∀ c ∈ w, isWS c = true)
    (hu : ∀ c ∈ u, identChar c = true) :
    matchSig name ('\x7b' :: (w ++ (u ++ ':' :: v))) = none := by
  unfold matchSig
  have h1 : lit ("\x7b").data ('\x7b' :: (w ++ (u ++ ':' :: v)))
      = some (w ++ (u ++ ':' :: v)) := by
    unfold lit
    rw [if_pos (show (("\x7b").data).isPrefixOf ('\x7b' :: (w ++ (u ++ ':' :: v))) = true
      from List.isPrefixOf_iff_prefix.mpr ⟨w ++ (u ++ ':' :: v), rfl⟩)]
    rfl
  rw [h1, Option.some_bind]
  have h2 : wsDrop (w ++ (u ++ ':' :: v)) = u ++ ':' :: v := by
    rw [wsDrop_ws_append hw]
    exact wsDrop_ident_colon hu v
  rw [h2]
  rcases lit_params_ident hu v with h3 | ⟨u', hu'e, hu', h3⟩
  · rw [h3]
    rfl
  · rw [h3, Option.some_bind, wsDrop_ident_colon hu']
    have h4 : lit ("\x7d:").data (u' ++ ':' :: v) = none := by
      cases u' with
      | nil => exact lit_head_fail rfl rfl (by decide)
      | cons d u'' =>
        exact lit_head_fail rfl rfl (Ne.symm (ident_ne (hu' d (by simp)) (by decide)))
    rw [h4]
    rfl

theorem replaceSig_cons_copy {name : Text} {c : Char} (hc : c ≠ '\x7b') (s : Text) :
    replaceSig name (c :: s) = c :: replaceSig name s :=
  replaceSig_cons_none (matchSig_none_head hc)

theorem replaceSig_all_copy {name p : Text} (hp : ∀ c ∈ p, c ≠ '\x7b') :
    replaceSig name p = p := by
  conv_lhs => rw [← List.append_nil p]
  rw [replaceSig_copy hp, replaceSig_nil]
  simp

theorem ident_not_brace {name : Text} (hn : IsIdent name) : ∀ c ∈ name, c ≠ '\x7b' :=
  fun c hc => ident_ne (hn c hc) (by decide)

theorem ident_not_nl {name : Text} (hn : IsIdent name) : ∀ c ∈ name, c ≠ '\n' :=
  fun c hc => ident_ne (hn c hc) (by decide)

theorem interfaceCode_decomp (name : Text) :
    interfaceCode name =
      ("\ninterface RouteParams ").data ++ '\x7b' ::
        (("\n  ").data ++ (("params").data ++ ':' ::
          ((" Promise<").data ++ '\x7b' ::
            (("\n    ").data ++ (name ++ ':' :: (" string\n  \x7d>\n\x7d\n").data))))) := by
  unfold interfaceCode
  have h1 : ("\ninterface RouteParams \x7b\n  params: Promise<\x7b\n    ").data
      = ("\ninterface RouteParams ").data ++ '\x7b' ::
          (("\n  ").data ++ (("params").data ++ ':' ::
            ((" Promise<").data ++ '\x7b' :: ("\n    ").data))) := by decide
  have h2 : (": string\n  \x7d>\n\x7d\n").data
      = ':' :: (" string\n  \x7d>\n\x7d\n").data := by decide
  rw [h1, h2]
  simp [List.append_assoc]

theorem replaceSig_interfaceCode {name : Text} (hn : IsIdent name) :
    replaceSig name (interfaceCode name) = interfaceCode name := by
  rw [interfaceCode_decomp name]
  rw [replaceSig_copy (by decide : ∀ c ∈ ("\ninterface RouteParams ").data, c ≠ '\x7b')]
  rw [replaceSig_cons_none (matchSig_brace_fail (by decide) (by decide))]
  rw [replaceSig_copy (by decide : ∀ c ∈ ("\n  ").data, c ≠ '\x7b')]
  rw [replaceSig_copy (by decide : ∀ c ∈ ("params").data, c ≠ '\x7b')]
  rw [replaceSig_cons_copy (by decide : (':' : Char) ≠ '\x7b')]
  rw [replaceSig_copy (by decide : ∀ c ∈ (" Promise<").data, c ≠ '\x7b')]
  rw [replaceSig_cons_none (matchSig_brace_fail (by decide) hn)]
  rw [replaceSig_copy (by decide : ∀ c ∈ ("\n    ").data, c ≠ '\x7b')]
  rw [replaceSig_copy (ident_not_brace hn)]
  rw [replaceSig_cons_copy (by decide : (':' : Char) ≠ '\x7b')]
  rw [replaceSig_all_copy (by decide : ∀ c ∈ (" string\n  \x7d>\n\x7d\n").data, c ≠ '\x7b')]

theorem splitNl_nl (t : Text) : splitNl ('\n' :: t) = [] :: splitNl t := by
  simp only [splitNl]
  cases hs : splitNl t with
  | nil => exact absurd hs (splitNl_ne_nil t)
  | cons l ls =>
    show (if ('\n' : Char) = '\n' then [] :: l :: ls else ('\n' :: l) :: ls) = [] :: l :: ls
    rw [if_pos rfl]

theorem splitNl_nonl_append {p : Text} (hp : ∀ c ∈ p, c ≠ '\n') :
    ∀ {t : Text} {l : Text} {ls : List Text}, splitNl t = l :: ls →
      splitNl (p ++ t) = (p ++ l) :: ls := by
  induction p with
  | nil =>
    intro t l ls h
    simpa using h
  | cons d p' ih =>
    intro t l ls h
    have hd : d ≠ '\n' := hp d (by simp)
    have h2 := ih (fun c hc => hp c (by simp [hc])) h
    rw [List.cons_append]
    simp only [splitNl]
    rw [h2]
    show (if d = '\n' then [] :: (p' ++ l) :: ls else (d :: (p' ++ l)) :: ls)
      = ((d :: p') ++ l) :: ls
    rw [if_neg hd]
    rfl

theorem interfaceCode_block_decomp (name : Text) :
    interfaceCode name = '\n' :: (("interface RouteParams \x7b").data
      ++ ('\n' :: (("  params: Promise<\x7b").data
      ++ ('\n' :: (("    ").data ++ (name ++ (": string\n  \x7d>\n\x7d\n").data)))))) := by
  unfold interfaceCode
  have h1 : ("\ninterface RouteParams \x7b\n  params: Promise<\x7b\n    ").data
      = '\n' :: (("interface RouteParams \x7b").data ++ ('\n' :: (("  params: Promise<\x7b").data
        ++ ('\n' :: ("    ").data)))) := by decide
  rw [h1]
  simp [List.append_assoc]

theorem splitNl_interfaceCode {name : Text} (hn : IsIdent name) :
    splitNl (interfaceCode name) =
      [[], ("interface RouteParams \x7b").data, ("  params: Promise<\x7b").data,
        ("    ").data ++ (name ++ (": string").data), ("  \x7d>").data, ("\x7d").data, []] := by
  have hT : splitNl ((": string\n  \x7d>\n\x7d\n").data)
      = (": string").data :: [("  \x7d>").data, ("\x7d").data, []] := by decide
  have h1 : splitNl (name ++ (": string\n  \x7d>\n\x7d\n").data)
      = (name ++ (": string").data) :: [("  \x7d>").data, ("\x7d").data, []] :=
    splitNl_nonl_append (ident_not_nl hn) hT
  have h2 : splitNl (("    ").data ++ (name ++ (": string\n  \x7d>\n\x7d\n").data))
      = (("    ").data ++ (name ++ (": string").data))
        :: [("  \x7d>").data, ("\x7d").data, []] :=
    splitNl_nonl_append (by decide) h1
  have h3 : splitNl ('\n' :: (("    ").data ++ (name ++ (": string\n  \x7d>\n\x7d\n").data)))
      = [] :: (("    ").data ++ (name ++ (": string").data))
        :: [("  \x7d>").data, ("\x7d").data, []] := by
    rw [splitNl_nl, h2]
  have h4 : splitNl (("  params: Promise<\x7b").data
      ++ ('\n' :: (("    ").data ++ (name ++ (": string\n  \x7d>\n\x7d\n").data))))
      = (("  params: Promise<\x7b").data ++ [])
        :: (("    ").data ++ (name ++ (": string").data))
        :: [("  \x7d>").data, ("\x7d").data, []] :=
    splitNl_nonl_append (by decide) h3
  have h5 : splitNl ('\n' :: (("  params: Promise<\x7b").data
      ++ ('\n' :: (("    ").data ++ (name ++ (": string\n  \x7d>\n\x7d\n").data)))))
      = [] :: (("  params: Promise<\x7b").data ++ [])
        :: (("    ").data ++ (name ++ (": string").data))
        :: [("  \x7d>").data, ("\x7d").data, []] := by
    rw [splitNl_nl, h4]
  have h6 : splitNl (("interface RouteParams \x7b").data
      ++ ('\n' :: (("  params: Promise<\x7b").data
      ++ ('\n' :: (("    ").data ++ (name ++ (": string\n  \x7d>\n\x7d\n").data))))))
      = (("interface RouteParams \x7b").data ++ [])
        :: (("  params: Promise<\x7b").data ++ [])
        :: (("    ").data ++ (name ++ (": string").data))
        :: [("  \x7d>").data, ("\x7d").data, []] :=
    splitNl_nonl_append (by decide) h5
  rw [interfaceCode_block_decomp name, splitNl_nl, h6]
  simp

theorem no_marker_in_interfaceCode {name : Text} (hn : IsIdent name) :
    ∀ l ∈ splitNl (interfaceCode name), containsSub marker l = false := by
  rw [splitNl_interfaceCode hn]
  intro l hl
  simp only [List.mem_cons, List.not_mem_nil, or_false] at hl
  rcases hl with rfl | rfl | rfl | rfl | rfl | rfl | rfl
  · decide
  · decide
  · decide
  · cases hcs : containsSub marker (("    ").data ++ (name ++ (": string").data)) with
    | false => rfl
    | true =>
      have hinf := containsSub_iff.mp hcs
      have hbrace : ('\x7b' : Char) ∈ ("    ").data ++ (name ++ (": string").data) :=
        hinf.subset (by decide)
      rcases List.mem_append.mp hbrace with h1 | h1
      · exact absurd h1 (by decide)
      · rcases List.mem_append.mp h1 with h2 | h2
        · exact absurd (hn '\x7b' h2) (by decide)
        · exact absurd h2 (by decide)
  · decide
  · decide
  · decide

theorem step4_interfaceCode {name : Text} (hn : IsIdent name) :
    step4 name (interfaceCode name) = interfaceCode name := by
  unfold step4
  apply replaceAll_id_of_not_infix
  intro hi
  have hdot : ('.' : Char) ∈ interfaceCode name := hi.subset (by
    unfold refPat
    exact List.mem_append.mpr (Or.inl (by decide)))
  unfold interfaceCode at hdot
  rcases List.mem_append.mp hdot with h1 | h1
  · rcases List.mem_append.mp h1 with h2 | h2
    · exact absurd h2 (by decide)
    · exact absurd (hn '.' h2) (by decide)
  · exact absurd h1 (by decide)

theorem step1_nil (name : Text) : step1 name [] = interfaceCode name := by
  unfold step1
  simp

/-! Final helpers about applyTransform. -/

theorem applyTransform_of_skipped {s name : Text}
    (h : transform s name = TransformResult.Skipped) : applyTransform s name = s := by
  unfold applyTransform
  rw [h]

theorem applyTransform_of_rewritten {s name t : Text}
    (h : transform s name = TransformResult.Rewritten t) : applyTransform s name = t := by
  unfold applyTransform
  rw [h]

/-! The claims. -/

/-- The configured parameter name `id`. -/
def idName : Text := ("id").data

/-- The configured parameter name `username`. -/
def usernameName : Text := ("username").data

/-- The two-import input of the spec's injection-placement property. -/
def c1Input : Text :=
  ("import a from \x27a\x27\nimport b from \x27b\x27\n\nexport function GET(...) \x7b...\x7d").data

/-- What the tool actually produces on `c1Input`. -/
def c1Output : Text :=
  ("import a from \x27a\x27\n\ninterface RouteParams \x7b\n  params: Promise<\x7b\n    id: string\n  \x7d>\n\x7d\nimport b from \x27b\x27\n\nexport function GET(...) \x7b...\x7d").data

/-- Claim C1 (code-bug evidence): on the spec's two-import input the
interface block injected by step 1 lands immediately after the first
of the import lines, before the second one — not strictly after the
last of them as the claim (and the script's own comment, `Add interface
after imports`) require.  The `rfind` upper bound excludes the newline
that ends the last import, so the search returns the newline one line too
early.  The exact output is computed, and the index of `interface` (19)
precedes the index of `import b` (85). -/
theorem c1_injection_lands_between_imports :
    transform c1Input idName = TransformResult.Rewritten c1Output
    ∧ findSub (("interface").data) c1Output = some 19
    ∧ findSub (("import b").data) c1Output = some 85
    ∧ containsSub (("\x7d\nimport b").data) c1Output = true := by
  refine ⟨by decide, by decide, by decide, by decide⟩

/-- Input for the step-4 word-boundary counterexample. -/
def c2Input : Text :=
  ("const a = params.username\nconst b = params.usernameSuffix\n").data

/-- Claim C2 (counterexample): the interpolated pattern `params\.username`
has no word boundary, so step 4 also rewrites the occurrence inside
`params.usernameSuffix`, leaving `usernameSuffix`; the occurrence is not
left unaffected. -/
theorem c2_suffix_occurrence_rewritten_cex :
    containsSub guardMarker c2Input = false
    ∧ containsSub (("params.usernameSuffix").data) c2Input = true
    ∧ step4 usernameName c2Input
        = ("const a = username\nconst b = usernameSuffix\n").data
    ∧ containsSub (("params.usernameSuffix").data) (step4 usernameName c2Input) = false := by
  refine ⟨by decide, by decide, by decide, by decide⟩

/-- Input for the amended step-4 scope claim. -/
def c2AmendInput : Text :=
  ("const a = params.username\nconst b = params.usernameSuffix\nconst c = params.username\n").data

/-- Claim C2 (amended): with parameter name `username`, step 4 rewrites
the leftmost non-overlapping literal occurrences of `params.username` to
`username` — every text containing the pattern is changed — and an
occurrence of `params.usernameSuffix` is affected as well: its
`params.username` prefix is rewritten, leaving `usernameSuffix`. -/
theorem c2_amended_rewrite_scope :
    (∀ s : Text, refPat usernameName <:+: s → step4 usernameName s ≠ s)
    ∧ step4 usernameName c2AmendInput
        = ("const a = username\nconst b = usernameSuffix\nconst c = username\n").data
    ∧ containsSub (("usernameSuffix").data) (step4 usernameName c2AmendInput) = true := by
  refine ⟨?_, by decide, by decide⟩
  intro s hocc heq
  have hlt := replaceAll_length_lt (refPat_ne_nil usernameName)
    (by decide : usernameName.length < (refPat usernameName).length) s.length s le_rfl hocc
  unfold step4 at heq
  rw [heq] at hlt
  exact absurd hlt (lt_irrefl _)

theorem c2_amended_rewrite_scope_witness :
    step4 usernameName (("params.username").data) ≠ ("params.username").data :=
  c2_amended_rewrite_scope.1 (("params.username").data) (containsSub_iff.mp (by decide))

/-- Claim C3: applying the transform twice yields `Skipped` on the second
application, and the second application leaves the text produced by the
first application byte-for-byte unchanged.  The parameter name is an
identifier, as are all names the tool is configured with; the first
application always injects the literal `interface RouteParams` and no
later step can destroy it, so the guard fires on any second run. -/
theorem c3_guard_idempotent (s name : Text) (hn : IsIdent name) :
    transform (applyTransform s name) name = TransformResult.Skipped
    ∧ applyTransform (applyTransform s name) name = applyTransform s name := by
  have h1 : transform (applyTransform s name) name = TransformResult.Skipped := by
    cases ht : transform s name with
    | Skipped =>
      rw [applyTransform_of_skipped ht, ht]
    | Rewritten t =>
      rw [applyTransform_of_rewritten ht]
      exact transform_of_guard (rewritten_contains_guard hn ht)
  exact ⟨h1, applyTransform_of_skipped h1⟩

/-- Witness input for the idempotence claim. -/
def c3WitnessInput : Text := ("import x from \x27y\x27\n\nexport const GET = 1\n").data

theorem c3_guard_idempotent_witness :
    transform (applyTransform c3WitnessInput idName) idName = TransformResult.Skipped
    ∧ applyTransform (applyTransform c3WitnessInput idName) idName
        = applyTransform c3WitnessInput idName :=
  c3_guard_idempotent c3WitnessInput idName (by decide)

/-- Input containing an unrelated symbol named RouteParams. -/
def c4Input : Text := ("const RouteParams = 1\n\nexport function GET() \x7b\x7d\n").data

/-- Claim C4 (counterexample): a text containing a declaration named
RouteParams that is not spelled `interface RouteParams` — here `const
RouteParams = 1` — does not hit the guard: the transform rewrites the
file instead of returning Skipped. -/
theorem c4_unrelated_symbol_not_skipped_cex :
    containsSub (("RouteParams").data) c4Input = true
    ∧ containsSub guardMarker c4Input = false
    ∧ transform c4Input idName ≠ TransformResult.Skipped := by
  refine ⟨by decide, by decide, by decide⟩

/-- Claim C4 (amended): the guard is a purely textual substring test for
`interface RouteParams`: every input text containing that literal
substring — wherever it occurs, even in a comment — makes the transform
return Skipped and leaves the text completely unchanged; a RouteParams
declaration in any other spelling does not trigger it. -/
theorem c4_amended_guard_substring (s name : Text)
    (h : containsSub guardMarker s = true) :
    transform s name = TransformResult.Skipped ∧ applyTransform s name = s :=
  ⟨transform_of_guard h, applyTransform_of_skipped (transform_of_guard h)⟩

theorem c4_amended_guard_substring_witness :
    transform (("// interface RouteParams exists\nconst x = 1\n").data) idName
      = TransformResult.Skipped
    ∧ applyTransform (("// interface RouteParams exists\nconst x = 1\n").data) idName
      = ("// interface RouteParams exists\nconst x = 1\n").data :=
  c4_amended_guard_substring (("// interface RouteParams exists\nconst x = 1\n").data) idName
    (by decide)

/-- The function-body shape of the extraction-exactness property. -/
def c5Input : Text :=
  ("\x7b params \x7d: RouteParams \x7b\n  try \x7b\n    ...\n  \x7d\n\x7d").data

/-- What the tool produces on `c5Input` (the step-1 block is inserted
before the final brace line because the text has no blank line). -/
def c5Output : Text :=
  ("\x7b params \x7d: RouteParams \x7b\n  try \x7b\n    const \x7b id \x7d = await params\n\n    ...\n  \x7d\n\ninterface RouteParams \x7b\n  params: Promise<\x7b\n    id: string\n  \x7d>\n\x7d\n\x7d").data

/-- Claim C5: for the claimed function-body shape with parameter name
`id`, the rewritten text has, immediately after the `try {` line, a line
reading exactly `const { id } = await params`, indented two spaces more
than the `try {` line, and exactly one extraction line is inserted. -/
theorem c5_extraction_insertion_exact :
    transform c5Input idName = TransformResult.Rewritten c5Output
    ∧ splitNl c5Output =
        [("\x7b params \x7d: RouteParams \x7b").data, ("  try \x7b").data,
         ("    const \x7b id \x7d = await params").data, [], ("    ...").data,
         ("  \x7d").data, [], ("interface RouteParams \x7b").data,
         ("  params: Promise<\x7b").data, ("    id: string").data, ("  \x7d>").data,
         ("\x7d").data, ("\x7d").data]
    ∧ (splitNl c5Output).get? 1 = some (("  try \x7b").data)
    ∧ (splitNl c5Output).get? 2 = some (("    const \x7b id \x7d = await params").data)
    ∧ indentOf (("    const \x7b id \x7d = await params").data)
        = indentOf (("  try \x7b").data) + 2
    ∧ ((splitNl c5Output).filter (fun l => containsSub (("await params").data) l)).length
        = 1 := by
  refine ⟨by decide, by decide, by decide, by decide, by decide, by decide⟩

/-- Claim C6: when the guard is not hit and no line of the text that step
3 scans (the step-2 output) contains `try {`, step 3 inserts nothing: the
rewritten text is exactly the input transformed by steps 1, 2 and 4
alone.  The normalization hypothesis records that a signature was
actually rewritten by step 2, as in the claim. -/
theorem c6_no_try_no_extraction (s name : Text)
    (hg : containsSub guardMarker s = false)
    (hsig : replaceSig name (step1 name s) ≠ step1 name s)
    (htry : ∀ l ∈ splitNl (replaceSig name (step1 name s)), containsSub tryMark l = false) :
    transform s name
      = TransformResult.Rewritten (step4 name (replaceSig name (step1 name s))) := by
  rw [transform_of_not_guard hg, step3_id_of_no_try htry]

/-- Witness input for the no-try claim: a normalized signature and no
`try` block anywhere. -/
def c6WitnessInput : Text :=
  ("import x from \x27y\x27\n\nexport function GET(\x7b params \x7d: \x7b params: \x7b id: string \x7d \x7d) \x7b\n  return params.id\n\x7d\n").data

theorem c6_no_try_no_extraction_witness :
    transform c6WitnessInput idName
      = TransformResult.Rewritten (step4 idName (replaceSig idName (step1 idName c6WitnessInput))) :=
  c6_no_try_no_extraction c6WitnessInput idName (by decide) (by decide) (by decide)

/-- Input with two whitespace variants of the `id` signature and one
`slug` signature. -/
def c7Input : Text :=
  ("export async function GET(req, \x7b params \x7d: \x7b params: \x7b id: string \x7d \x7d) \x7b\x7d\nexport async function PUT(req, \x7bparams\x7d:\x7bparams:\x7bid:string\x7d\x7d) \x7b\x7d\nexport async function DEL(req, \x7b params \x7d: \x7b params: \x7b slug: string \x7d \x7d) \x7b\x7d\n").data

/-- Step 2's output on `c7Input`. -/
def c7Output : Text :=
  ("export async function GET(req, \x7b params \x7d: RouteParams) \x7b\x7d\nexport async function PUT(req, \x7b params \x7d: RouteParams) \x7b\x7d\nexport async function DEL(req, \x7b params \x7d: \x7b params: \x7b slug: string \x7d \x7d) \x7b\x7d\n").data

/-- Claim C7: with name `id`, step 2 rewrites every (whitespace-
insensitive) occurrence of the inline signature shape to
`{ params }: RouteParams`, after which the shape no longer occurs, while
the `slug` signature is left verbatim; and a text with no occurrence of
the shape is left completely unmodified (pattern miss, not false match). -/
theorem c7_signature_rewrite_precision :
    replaceSig idName c7Input = c7Output
    ∧ hasSig idName c7Input = true
    ∧ hasSig idName c7Output = false
    ∧ containsSub (("\x7b params \x7d: \x7b params: \x7b slug: string \x7d \x7d").data) c7Output
        = true
    ∧ (∀ s : Text, hasSig idName s = false → replaceSig idName s = s) := by
  refine ⟨by decide, by decide, by decide, by decide,
    fun s h => replaceSig_id_of_not_hasSig s h⟩

theorem c7_signature_rewrite_precision_witness :
    replaceSig idName (("export function DEL(\x7b params \x7d: \x7b params: \x7b slug: string \x7d \x7d) \x7b\x7d").data)
      = ("export function DEL(\x7b params \x7d: \x7b params: \x7b slug: string \x7d \x7d) \x7b\x7d").data :=
  c7_signature_rewrite_precision.2.2.2.2 _ (by decide)

/-- A file system holding only the second configured path. -/
def c8Fs : List (Text × Text) :=
  [(("src/app/api/users/[username]/route.ts").data, ("x\n\ny").data)]

/-- Claim C8 (counterexample): with the configured table, the first file
is missing, `open` raises, and the driver loop has no per-file handler:
the run aborts and the second, present file is left unprocessed even
though the transform would have rewritten it. -/
theorem c8_io_error_halts_run_cex :
    lookupFile c8Fs (("src/app/api/quiz/[id]/route.ts").data) = none
    ∧ runPairs c8Fs filesTable = (c8Fs, false)
    ∧ transform (("x\n\ny").data) usernameName ≠ TransformResult.Skipped := by
  refine ⟨by decide, by decide, by decide⟩

/-- Claim C8 (amended): an I/O error raised while migrating one file
halts the whole run: the remaining configured files are not processed and
the file system is left as it was at the failure. -/
theorem c8_amended_io_error_aborts (fs : List (Text × Text)) (p name : Text)
    (rest : List (Text × Text)) (h : lookupFile fs p = none) :
    runPairs fs ((p, name) :: rest) = (fs, false) := by
  unfold runPairs
  rw [h]

theorem c8_amended_io_error_aborts_witness :
    runPairs c8Fs ((("src/app/api/quiz/[id]/route.ts").data, idName)
      :: [(("src/app/api/users/[username]/route.ts").data, usernameName),
          (("src/app/api/users/[username]/follow/route.ts").data, usernameName)])
      = (c8Fs, false) :=
  c8_amended_io_error_aborts c8Fs (("src/app/api/quiz/[id]/route.ts").data) idName
    [(("src/app/api/users/[username]/route.ts").data, usernameName),
     (("src/app/api/users/[username]/follow/route.ts").data, usernameName)] (by decide)

/-- A handler with a `try` block, for the trailing-newline claim. -/
def c9Input : Text :=
  ("const h = (\x7b params \x7d: RouteParams) => \x7b\n  try \x7b\n    return params.id\n  \x7d\n\x7d\n").data

/-- What the tool produces on `c9Input`. -/
def c9Output : Text :=
  ("const h = (\x7b params \x7d: RouteParams) => \x7b\n  try \x7b\n    const \x7b id \x7d = await params\n\n    return id\n  \x7d\n\ninterface RouteParams \x7b\n  params: Promise<\x7b\n    id: string\n  \x7d>\n\x7d\n\x7d\n").data

/-- Claim C9: every element the step-3 scan adds beyond the original
lines is an extraction element `awaitElem` carrying its own trailing
newline, so after the join an empty line follows the extraction line; on
the concrete run the line after `const { id } = await params` is empty. -/
theorem c9_extraction_trailing_newline :
    (∀ (name : Text) (ls : List Text) (f a : Bool) (e : Text), e ∈ step3Lines name ls f a →
        e ∈ ls ∨ ∃ l, l ∈ ls ∧ containsSub tryMark l = true ∧ e = awaitElem name l
          ∧ e.getLast? = some '\n')
    ∧ transform c9Input idName = TransformResult.Rewritten c9Output
    ∧ (splitNl c9Output).get? 1 = some (("  try \x7b").data)
    ∧ (splitNl c9Output).get? 2 = some (("    const \x7b id \x7d = await params").data)
    ∧ (splitNl c9Output).get? 3 = some [] := by
  refine ⟨?_, by decide, by decide, by decide, by decide⟩
  intro name ls f a e h
  rcases step3Lines_elem f a e h with h1 | ⟨l, hl, ht, he⟩
  · exact Or.inl h1
  · refine Or.inr ⟨l, hl, ht, he, ?_⟩
    rw [he]
    exact awaitElem_getLast

theorem c9_extraction_trailing_newline_witness :
    awaitElem idName (("  try \x7b").data)
      ∈ step3Lines idName [("\x7b params \x7d: RouteParams").data, ("  try \x7b").data]
          false false
    ∧ (awaitElem idName (("  try \x7b").data)
          ∈ [("\x7b params \x7d: RouteParams").data, ("  try \x7b").data]
        ∨ ∃ l, l ∈ [("\x7b params \x7d: RouteParams").data, ("  try \x7b").data]
            ∧ containsSub tryMark l = true
            ∧ awaitElem idName (("  try \x7b").data) = awaitElem idName l
            ∧ (awaitElem idName (("  try \x7b").data)).getLast? = some '\n') :=
  ⟨by decide,
    c9_extraction_trailing_newline.1 idName
      [("\x7b params \x7d: RouteParams").data, ("  try \x7b").data] false false _ (by decide)⟩

/-- Claim C10: on the empty input the transform does not fail: the guard
misses, step 1 inserts the interface block at position 0, and steps 2, 3
and 4 leave the block unchanged, so the result is `Rewritten` with
exactly the injected block.  Holds for every identifier parameter name. -/
theorem c10_empty_input_rewritten (name : Text) (hn : IsIdent name) :
    transform [] name = TransformResult.Rewritten (interfaceCode name) := by
  rw [transform_of_not_guard (by decide)]
  rw [step1_nil, replaceSig_interfaceCode hn,
    step3_id_of_no_marker (no_marker_in_interfaceCode hn), step4_interfaceCode hn]

theorem c10_empty_input_rewritten_witness :
    transform [] idName = TransformResult.Rewritten (interfaceCode idName) :=
  c10_empty_input_rewritten idName (by decide)

end FixParams
